import Mathlib

/-
Verification development for the ENF repository (src/enf/signal_processing.py and
src/enf/match.py), as a shallow embedding in Lean 4.

Modelling conventions:
- Signals and series are lists of rationals; the Python code computes with IEEE
  floats, which we model by exact rational arithmetic.  All concrete divergences
  cited in the theorems below are exact in binary64 as well (small integers).
- Sample rates are naturals.  Python int() truncation of a nonnegative quotient
  is modelled by natural/floor division.
- Fallible code returns Except/Option.  A Python exception is an error value.
- Python sorted() is a stable sort; with a consistent comparator every stable
  sort produces the same output, so it is embedded as List.insertionSort, whose
  orderedInsert places an element before the first element it compares
  less-or-equal to, exactly the stable behaviour.
- scipy/numpy/stumpy are third-party libraries, not part of the repository;
  they are modelled at their documented interfaces (see each definition).
-/

namespace ENF

/-- Sum of pairwise products of two lists (dot product, truncating zip). -/
def zsum (l1 l2 : List ℚ) : ℚ := (List.zipWith (fun a b => a * b) l1 l2).sum

/-- Sum of squares of a list. -/
def sumSq (l : List ℚ) : ℚ := (l.map (fun a => a ^ 2)).sum

/-- Error raised by the rate validation in signal_processing.py
(the ValueError with message about the new sample rate; the spec calls it
InvalidRateError). -/
inductive RateErr where
  | invalidRate
deriving DecidableEq

/-- Embedding of _validate_fs (signal_processing.py lines 116-128):
raises exactly when fs < new_fs. -/
def validate_fs (fs new_fs : Nat) : Except RateErr Unit :=
  if fs < new_fs then Except.error RateErr.invalidRate else Except.ok ()

/-- Model of scipy.signal.resample at its documented interface: Fourier-domain
resampling of data to exactly num output samples.  Only the output length is
relied on by the claims; the sample values are modelled by nearest-index
selection. -/
def scipy_signal_resample (data : List ℚ) (num : Nat) : List ℚ :=
  (List.range num).map (fun i => data.getD (i * data.length / num) 0)

/-- Embedding of resample (signal_processing.py lines 46-63):
wave_duration = len(data)/fs, num_samples = int(wave_duration * new_fs)
(truncation of a nonnegative rational, i.e. floor: len*new_fs/fs in natural
division), returning the pair (new_fs, resampled data). -/
def resample (data : List ℚ) (fs new_fs : Nat) : Except RateErr (Nat × List ℚ) :=
  match validate_fs fs new_fs with
  | Except.error e => Except.error e
  | Except.ok _ =>
    Except.ok (new_fs, scipy_signal_resample data (data.length * new_fs / fs))

/-- Model of scipy.signal.decimate at its documented interface: keeps every
q-th sample after an anti-alias FIR filter; output length is ceil(len/q).
Only lengths and error behaviour are relied on by the claims. -/
def scipy_signal_decimate (data : List ℚ) (q : Nat) : List ℚ :=
  (List.range ((data.length + q - 1) / q)).map (fun i => data.getD (i * q) 0)

/-- Embedding of decimate_and_interpolate (signal_processing.py lines 66-90). -/
def decimate_and_interpolate (data : List ℚ) (fs new_fs : Nat) :
    Except RateErr (Nat × List ℚ) :=
  match validate_fs fs new_fs with
  | Except.error e => Except.error e
  | Except.ok _ =>
    let g := Nat.gcd fs new_fs
    let decimated := scipy_signal_decimate data (fs / g)
    Except.ok (new_fs, scipy_signal_resample decimated (decimated.length * (new_fs / g)))

/-- Embedding of almost_decimate (signal_processing.py lines 93-113):
decimation factor floor(fs/new_fs); the returned rate is
int(len(decimated)/wave_duration) = floor(len(decimated)*fs/len(data)). -/
def almost_decimate (data : List ℚ) (fs new_fs : Nat) :
    Except RateErr (Nat × List ℚ) :=
  match validate_fs fs new_fs with
  | Except.error e => Except.error e
  | Except.ok _ =>
    let decimated := scipy_signal_decimate data (fs / new_fs)
    Except.ok (decimated.length * fs / data.length, decimated)

/-- First index of a maximum element of a rational list (0 on the empty list).
This embeds both numpy argmax and np.where(spectrum == np.amax(spectrum))[0][0],
which return the first index attaining the maximum. -/
def np_argmax (l : List ℚ) : Nat :=
  l.findIdx (fun x => l.all (fun y => decide (y ≤ x)))

/-- First index of a lexicographic maximum of a complex-valued list, modelling
numpy argmax on complex arrays (numpy orders complex numbers lexicographically
by real part, then imaginary part, and argmax returns the first maximum). -/
def np_argmax_cplx (l : List (ℚ × ℚ)) : Nat :=
  l.findIdx (fun x => l.all (fun y => decide (y.1 < x.1 ∨ (y.1 = x.1 ∧ y.2 ≤ x.2))))

/-- Median of a list: middle element of the sorted list (0 for the empty list). -/
def listMedian (l : List ℚ) : ℚ :=
  (l.insertionSort (fun a b => a ≤ b)).getD (l.length / 2) 0

/-- Model of scipy.signal.medfilt at its documented interface: output has the
same length as the input; entry i is the median of the kernel-sized window
centred at i, zero-padded at the edges.  Only the length is relied on by the
claims. -/
def scipy_medfilt (xs : List ℚ) (k : Nat) : List ℚ :=
  (List.range xs.length).map (fun i =>
    listMedian ((List.range k).map (fun j =>
      let t : Int := ((i : Nat) : Int) + ((j : Nat) : Int) - ((k / 2 : Nat) : Int)
      if 0 ≤ t ∧ t < (xs.length : Int) then xs.getD t.toNat 0 else 0)))

/-- Embedding of median_filter (signal_processing.py lines 225-242).
zxx is the complex STFT grid, outer index = frequency bin, inner index = time
slice; zxx[:, i] is the i-th column.  The comprehension
  [f[idx] for i in range(len(t)) if (idx := np.argmax(zxx[:, i]))]
keeps a slice only when the walrus-bound argmax is truthy, i.e. nonzero:
slices whose peak is at bin 0 are dropped.  scipy.signal.medfilt then preserves
the length of that filtered list. -/
def median_filter (f t : List ℚ) (zxx : List (List (ℚ × ℚ))) : List ℚ :=
  scipy_medfilt
    ((List.range t.length).filterMap (fun i =>
      if np_argmax_cplx (zxx.map (fun row => row.getD i (0, 0))) ≠ 0 then
        some (f.getD (np_argmax_cplx (zxx.map (fun row => row.getD i (0, 0)))) 0)
      else none))
    29

/-- Python list indexing: nonnegative indices are bounds-checked, negative
indices wrap once from the end (data[-1] is the last element); an index out of
[-len, len) raises IndexError, modelled as none. -/
def pyGet (l : List ℚ) (i : Int) : Option ℚ :=
  if 0 ≤ i then l.get? i.toNat
  else if 0 ≤ (l.length : Int) + i then l.get? ((l.length : Int) + i).toNat
  else none

/-- Embedding of the inner quadratic_interpolation of interpolate
(signal_processing.py lines 205-212): left, center, right are
data[max_idx-1], data[max_idx], data[max_idx+1] with Python indexing;
p = 0.5*(left-right)/(left-2*center+right); result (max_idx+p)*bin_size.
Rational division is total, mirroring that numpy float division by zero
does not raise. -/
def quadratic_interpolation (data : List ℚ) (max_idx : Nat) (bin_size : ℚ) : Option ℚ :=
  (pyGet data ((max_idx : Int) - 1)).bind (fun left =>
    (pyGet data (max_idx : Int)).bind (fun center =>
      (pyGet data ((max_idx : Int) + 1)).map (fun right =>
        ((max_idx : ℚ) + (1/2) * (left - right) / (left - 2 * center + right)) * bin_size)))

/-- Option-valued traversal of a list: the first failure aborts the whole
computation, modelling a Python exception escaping a loop. -/
def traverseOpt : List α → (α → Option β) → Option (List β)
  | [], _ => some []
  | x :: xs, f => (f x).bind (fun y => (traverseOpt xs f).map (fun ys => y :: ys))

/-- Embedding of interpolate (signal_processing.py lines 194-222): iterate over
the time slices of the magnitude grid np.abs(np.transpose(zxx)) and apply
quadratic interpolation at the first index attaining the maximum magnitude.
The grid entries are taken real-valued (the function is applied elementwise to
magnitudes; a complex modulus is not rational-representable, and the claims
quantify over magnitude spectra). -/
def interpolate (zxx : List (List ℚ)) (bin_size : ℚ) : Option (List ℚ) :=
  traverseOpt (zxx.transpose.map (fun sl => sl.map (fun v => |v|)))
    (fun spectrum => quadratic_interpolation spectrum (np_argmax spectrum) bin_size)

/-- Error raised by numpy sliding_window_view when the window is larger than
the array (match.py builds windows this way). -/
inductive MatchErr where
  | windowTooLarge
deriving DecidableEq

/-- Decidable equality of Except values, for evaluating the matchers on
concrete inputs. -/
instance {ε α : Type} [DecidableEq ε] [DecidableEq α] : DecidableEq (Except ε α) := fun a b =>
  match a, b with
  | Except.ok x, Except.ok y =>
    if h : x = y then isTrue (by rw [h]) else isFalse (fun hc => h (Except.ok.inj hc))
  | Except.ok _, Except.error _ => isFalse (fun hc => Except.noConfusion hc)
  | Except.error _, Except.ok _ => isFalse (fun hc => Except.noConfusion hc)
  | Except.error x, Except.error y =>
    if h : x = y then isTrue (by rw [h]) else isFalse (fun hc => h (Except.error.inj hc))

/-- The window of T of length m starting at offset i (T[i:i+m]). -/
def windowAt (T : List ℚ) (i m : Nat) : List ℚ := (T.drop i).take m

/-- Scaled covariance of a window w with the query Q: with m = len(Q),
m*sum(w*q) - sum(w)*sum(q).  The Pearson coefficient of w and Q equals
pearsonC / sqrt(pearsonV w * pearsonV Q). -/
def pearsonC (Q w : List ℚ) : ℚ := (Q.length : ℚ) * zsum w Q - w.sum * Q.sum

/-- Scaled variance of a list: m*sum(w^2) - sum(w)^2 (m^2 times the biased
variance); nonnegative, and zero exactly for constant lists. -/
def pearsonV (w : List ℚ) : ℚ := (w.length : ℚ) * sumSq w - w.sum ^ 2

/-- Order key representing the Pearson coefficient c/sqrt(vQ*v) of a window
with scaled covariance c and scaled variance v: sign(c) * c^2 / v.  For
nondegenerate windows (v > 0) the map r to sign(r)*r^2*vQ is strictly
increasing, so comparing keys is exactly comparing coefficients; this keeps
the comparator rational (the coefficient itself is an irrational square
root in general). -/
def corrKey (c v : ℚ) : ℚ := if 0 ≤ c then c ^ 2 / v else -(c ^ 2 / v)

/-- The Pearson coefficient represented by (c, v) against a query of scaled
variance vQ equals exactly 1: positive covariance achieving the
Cauchy-Schwarz bound. -/
def corrIsOne (vQ c v : ℚ) : Prop := 0 < c ∧ c ^ 2 = vQ * v

/-- The scored window list of pmcc before sorting: offset i paired with the
scaled covariance and scaled variance of window i (enumerate order as produced
by sliding_window_view). -/
def pmccScored (Q T : List ℚ) : List (Nat × ℚ × ℚ) :=
  (List.range (T.length - Q.length + 1)).map (fun i =>
    (i, pearsonC Q (windowAt T i Q.length), pearsonV (windowAt T i Q.length)))

/-- Embedding of pmcc (match.py lines 17-33): slide a window of length len(Q)
over T (numpy raises when len(Q) > len(T)), score each window by its Pearson
coefficient with Q, and stable-sort descending by coefficient
(sorted with key -corr).  Scores are carried as the exact pair
(scaled covariance, scaled variance); see corrKey. -/
def pmcc (Q T : List ℚ) : Except MatchErr (List (Nat × ℚ × ℚ)) :=
  if T.length < Q.length then Except.error MatchErr.windowTooLarge
  else Except.ok ((pmccScored Q T).insertionSort
    (fun a b => -(corrKey a.2.1 a.2.2) ≤ -(corrKey b.2.1 b.2.2)))

/-- Squared Euclidean distance between two lists.  scipy distance.euclidean
returns its square root; the square root is strictly monotone on nonnegative
reals and the code only sorts by and reports distances, so distances are
carried as their exact squares (a distance is 0 exactly when its square is). -/
def sqDist (w q : List ℚ) : ℚ :=
  ((List.zipWith (fun a b => a - b) w q).map (fun d => d ^ 2)).sum

/-- The scored window list of euclidean before sorting. -/
def euclideanScored (Q T : List ℚ) : List (Nat × ℚ) :=
  (List.range (T.length - Q.length + 1)).map (fun i =>
    (i, sqDist (windowAt T i Q.length) Q))

/-- Embedding of euclidean (match.py lines 59-75): slide a window of length
len(Q) over T (numpy raises when len(Q) > len(T)), score each window by
Euclidean distance to Q, stable-sort ascending. -/
def euclidean (Q T : List ℚ) : Except MatchErr (List (Nat × ℚ)) :=
  if T.length < Q.length then Except.error MatchErr.windowTooLarge
  else Except.ok ((euclideanScored Q T).insertionSort (fun a b => a.2 ≤ b.2))

/-- Modelled from the spec: stump (match.py lines 36-56) delegates to
stumpy.match, an external library absent from the repository; section 4.4 of
the spec describes it as a matrix-profile nearest-neighbor search returning a
(distance, index) pair per window under z-normalized Euclidean distance, with
the optional distance threshold disabled, re-ranked ascending by distance; the
spec's edge-case rule gives zero windows when len(Q) > len(T).  The
z-normalized distance of window w is sqrt(2*m*(1 - r)) with r the Pearson
coefficient of w and Q, so ascending distance is exactly descending
coefficient and a distance is 0 exactly when r = 1; entries therefore carry
the same exact (scaled covariance, scaled variance) scores as pmcc. -/
def stump (Q T : List ℚ) : Except MatchErr (List (Nat × ℚ × ℚ)) :=
  if T.length < Q.length then Except.ok []
  else Except.ok ((pmccScored Q T).insertionSort
    (fun a b => -(corrKey a.2.1 a.2.2) ≤ -(corrKey b.2.1 b.2.2)))

/-- A Python float sort key as produced by the pmcc comprehension: a real
value (carried as an exact rational) or IEEE NaN.  np.corrcoef returns NaN
exactly when the query or the window is constant (zero variance). -/
inductive PyKey where
  | num (q : ℚ)
  | nan
deriving DecidableEq

/-- IEEE float less-than on keys: every comparison involving NaN is False. -/
def pyKeyLt : PyKey → PyKey → Bool
  | PyKey.num a, PyKey.num b => decide (a < b)
  | _, _ => false

/-- The binary search of CPython binarysort (Objects/listobject.c): locate
the insertion point of pivot in the prefix pre between positions l and r,
probing p = l + (r - l)/2 and moving r down to p when pivot < pre[p], else l
past p.  The loop is bounded by structural fuel; each step shrinks r - l, so
any fuel of at least r - l gives the exact CPython result and callers pass
the prefix length. -/
def binInsertSearch (lt : α → α → Bool) (pre : List α) (pivot : α) :
    Nat → Nat → Nat → Nat
  | 0, l, _ => l
  | fuel + 1, l, r =>
    if l < r then
      let p := l + (r - l) / 2
      if lt pivot (pre.getD p pivot) then binInsertSearch lt pre pivot fuel l p
      else binInsertSearch lt pre pivot fuel (p + 1) r
    else l

/-- CPython binarysort: insert each remaining element into the prefix at its
binary-search position (stable when the comparator is consistent). -/
def binarysort (lt : α → α → Bool) : List α → List α → List α
  | pre, [] => pre
  | pre, x :: rest =>
    binarysort lt (pre.insertNth (binInsertSearch lt pre x pre.length 0 pre.length) x) rest

/-- Continuation length of a CPython ascending run: extend while the next
element is not strictly less than the previous one. -/
def countRunAsc (lt : α → α → Bool) : α → List α → Nat
  | _, [] => 0
  | prev, x :: rest => if lt x prev then 0 else 1 + countRunAsc lt x rest

/-- Continuation length of a CPython descending run (strictly decreasing). -/
def countRunDesc (lt : α → α → Bool) : α → List α → Nat
  | _, [] => 0
  | prev, x :: rest => if lt x prev then 1 + countRunDesc lt x rest else 0

/-- Modelled from CPython list.sort (Objects/listobject.c) for lists of fewer
than 64 elements: there minrun equals the length, so the whole sort is one
natural-run detection (an initial strictly descending run is reversed,
otherwise the maximal not-strictly-descending prefix is kept) followed by
binarysort of the remaining elements into that run; no merging occurs.  This
is the exact algorithm Python sorted() executes on a matcher score list with
fewer than 64 windows, and it stays faithful even when NaN keys make the
comparator inconsistent, which is where an idealized stable sort is not. -/
def cpythonSortSmall (lt : α → α → Bool) : List α → List α
  | [] => []
  | [a] => [a]
  | a :: b :: rest =>
    if lt b a then
      binarysort lt ((List.take (2 + countRunDesc lt b rest) (a :: b :: rest)).reverse)
        (List.drop (2 + countRunDesc lt b rest) (a :: b :: rest))
    else
      binarysort lt (List.take (2 + countRunAsc lt b rest) (a :: b :: rest))
        (List.drop (2 + countRunAsc lt b rest) (a :: b :: rest))

/-- The Python float sort key -corrcoef(w, Q) of a window of the pmcc
comprehension: NaN exactly when the query or the window is constant, and
otherwise the real coefficient represented through the order-isomorphic exact
key -corrKey (only comparisons between keys are ever consumed). -/
def pearsonKeyPy (Q w : List ℚ) : PyKey :=
  if pearsonV w = 0 ∨ pearsonV Q = 0 then PyKey.nan
  else PyKey.num (-(corrKey (pearsonC Q w) (pearsonV w)))

/-- Refinement of pmcc for inputs whose scores may be NaN: the same
windowing, scoring and key direction as pmcc, but sorted by CPython's actual
small-list sort under IEEE NaN comparison semantics instead of an idealized
stable sort.  The two agree whenever no score is NaN: the comparator is then
a consistent total preorder and every stable sort yields the same output.
Defined for fewer than 64 windows (see cpythonSortSmall). -/
def pmccPy (Q T : List ℚ) : Except MatchErr (List (Nat × PyKey)) :=
  if T.length < Q.length then Except.error MatchErr.windowTooLarge
  else Except.ok (cpythonSortSmall (fun a b => pyKeyLt a.2 b.2)
    ((List.range (T.length - Q.length + 1)).map
      (fun i => (i, pearsonKeyPy Q (windowAt T i Q.length)))))

/-- Stable-sorted-output relation for a ℚ-keyed stable sort: keys ascend, and
entries with equal keys satisfy R (used to record that ties keep their input
order). -/
def sortedStable (key : α → ℚ) (R : α → α → Prop) (a b : α) : Prop :=
  key a ≤ key b ∧ (key a = key b → R a b)

theorem zsum_cons (a b : ℚ) (l1 l2 : List ℚ) :
    zsum (a :: l1) (b :: l2) = a * b + zsum l1 l2 := by
  simp [zsum]

theorem sumSq_cons (a : ℚ) (l : List ℚ) : sumSq (a :: l) = a ^ 2 + sumSq l := by
  simp [sumSq]

theorem sumSq_nonneg (l : List ℚ) : 0 ≤ sumSq l := by
  induction l with
  | nil => simp [sumSq]
  | cons a l ih => rw [sumSq_cons]; positivity

/-- Cauchy-Schwarz inequality for list dot products. -/
theorem sq_zsum_le : ∀ l1 l2 : List ℚ, zsum l1 l2 ^ 2 ≤ sumSq l1 * sumSq l2
  | [], l2 => by simp [zsum, sumSq]
  | a :: l1, [] => by
    simp only [zsum, sumSq, List.zipWith_nil_right, List.sum_nil, List.map_nil]
    nlinarith [sumSq_nonneg (a :: l1), sq_nonneg a]
  | a :: l1, b :: l2 => by
    have IH := sq_zsum_le l1 l2
    have hA := sumSq_nonneg l1
    have hB := sumSq_nonneg l2
    rw [zsum_cons, sumSq_cons, sumSq_cons]
    rcases eq_or_lt_of_le hB with hB0 | hBpos
    · have hS : zsum l1 l2 = 0 := by nlinarith [sq_nonneg (zsum l1 l2)]
      rw [hS, ← hB0]
      nlinarith [mul_nonneg hA (sq_nonneg b)]
    · nlinarith [sq_nonneg (a * sumSq l2 - b * zsum l1 l2),
        mul_nonneg (sq_nonneg b) (sub_nonneg.2 IH),
        mul_nonneg hBpos.le (sub_nonneg.2 IH)]

theorem zsum_self (l : List ℚ) : zsum l l = sumSq l := by
  induction l with
  | nil => simp [zsum, sumSq]
  | cons a l ih => rw [zsum_cons, sumSq_cons, ih]; ring

theorem pearsonC_self (Q : List ℚ) : pearsonC Q Q = pearsonV Q := by
  simp [pearsonC, pearsonV, zsum_self]; ring

theorem zsum_replicate_one : ∀ l : List ℚ, zsum l (List.replicate l.length 1) = l.sum
  | [] => by simp [zsum]
  | a :: l => by
    simp only [List.length_cons, List.replicate_succ, List.sum_cons]
    rw [zsum_cons, zsum_replicate_one l]; ring

theorem sumSq_replicate_one (n : Nat) : sumSq (List.replicate n 1) = n := by
  induction n with
  | zero => simp [sumSq]
  | succ n ih => rw [List.replicate_succ, sumSq_cons, ih]; push_cast; ring

theorem pearsonV_nonneg (w : List ℚ) : 0 ≤ pearsonV w := by
  have h := sq_zsum_le w (List.replicate w.length 1)
  rw [zsum_replicate_one, sumSq_replicate_one] at h
  simp only [pearsonV]
  nlinarith [h]

theorem zsum_affine (p s q t : ℚ) : ∀ l1 l2 : List ℚ, l1.length = l2.length →
    (List.zipWith (fun a b => (p * a - s) * (q * b - t)) l1 l2).sum
      = p * q * zsum l1 l2 - p * t * l1.sum - q * s * l2.sum + (l1.length : ℚ) * (s * t)
  | [], [], _ => by simp [zsum]
  | [], _ :: _, h => by simp at h
  | _ :: _, [], h => by simp at h
  | a :: l1, b :: l2, h => by
    have hlen : l1.length = l2.length := by simpa using h
    simp only [List.zipWith_cons_cons, List.sum_cons, List.length_cons, List.sum_cons]
    rw [zsum_cons, zsum_affine p s q t l1 l2 hlen]
    push_cast
    ring

theorem sumSq_affine (p s : ℚ) (l : List ℚ) :
    sumSq (l.map (fun a => p * a - s))
      = p ^ 2 * sumSq l - 2 * p * s * l.sum + (l.length : ℚ) * s ^ 2 := by
  induction l with
  | nil => simp [sumSq]
  | cons a l ih =>
    simp only [List.map_cons, List.length_cons, List.sum_cons]
    rw [sumSq_cons, sumSq_cons, ih]
    push_cast
    ring

/-- Cauchy-Schwarz for the scaled covariance and variances: the Pearson
coefficient has absolute value at most 1. -/
theorem pearson_cs (Q w : List ℚ) (hlen : w.length = Q.length) :
    pearsonC Q w ^ 2 ≤ pearsonV Q * pearsonV w := by
  rcases Nat.eq_zero_or_pos Q.length with hm | hm
  · have hw : w = [] := List.length_eq_zero.1 (hlen.trans hm)
    have hq : Q = [] := List.length_eq_zero.1 hm
    subst hw; subst hq
    simp [pearsonC, pearsonV, zsum, sumSq]
  · have hmq : (0 : ℚ) < (Q.length : ℚ) := by exact_mod_cast hm
    have h := sq_zsum_le (w.map (fun a => (Q.length : ℚ) * a - w.sum))
      (Q.map (fun a => (Q.length : ℚ) * a - Q.sum))
    rw [sumSq_affine, sumSq_affine] at h
    have hz : zsum (w.map (fun a => (Q.length : ℚ) * a - w.sum))
        (Q.map (fun a => (Q.length : ℚ) * a - Q.sum))
        = (Q.length : ℚ) * (Q.length : ℚ) * zsum w Q
          - (Q.length : ℚ) * Q.sum * w.sum - (Q.length : ℚ) * w.sum * Q.sum
          + (w.length : ℚ) * (w.sum * Q.sum) := by
      rw [zsum, List.zipWith_map (fun a b => a * b)
        (fun a => (Q.length : ℚ) * a - w.sum) (fun a => (Q.length : ℚ) * a - Q.sum) w Q]
      exact zsum_affine (Q.length : ℚ) w.sum (Q.length : ℚ) Q.sum w Q hlen
    rw [hz, hlen] at h
    have key : (Q.length : ℚ) ^ 2 * (((Q.length : ℚ) * zsum w Q - w.sum * Q.sum) ^ 2)
        ≤ (Q.length : ℚ) ^ 2 * (((Q.length : ℚ) * sumSq Q - Q.sum ^ 2)
            * ((Q.length : ℚ) * sumSq w - w.sum ^ 2)) := by
      nlinarith [h]
    have hfin := le_of_mul_le_mul_left key (by positivity : (0 : ℚ) < (Q.length : ℚ) ^ 2)
    simp only [pearsonC, pearsonV, hlen]
    exact hfin

theorem sqDist_nonneg (w q : List ℚ) : 0 ≤ sqDist w q := by
  refine List.sum_nonneg ?_
  intro x hx
  rcases List.mem_map.1 hx with ⟨d, _, rfl⟩
  positivity

theorem sqDist_self : ∀ w : List ℚ, sqDist w w = 0
  | [] => by simp [sqDist]
  | a :: w => by
    simp only [sqDist, List.zipWith_cons_cons, List.map_cons, List.sum_cons]
    have := sqDist_self w
    simp only [sqDist] at this
    rw [this]; ring

theorem pairwise_orderedInsert_key (key : α → ℚ) (R : α → α → Prop) (x : α) :
    ∀ ys : List α, ys.Pairwise (sortedStable key R) →
      (∀ y ∈ ys, key x = key y → R x y) →
      (ys.orderedInsert (fun a b => key a ≤ key b) x).Pairwise (sortedStable key R)
  | [], _, _ => List.pairwise_singleton _ _
  | y :: ys, hys, hx => by
    rw [List.orderedInsert]
    rcases List.pairwise_cons.1 hys with ⟨hy, htail⟩
    split
    case isTrue h =>
      refine List.pairwise_cons.2 ⟨?_, hys⟩
      intro z hz
      rcases List.mem_cons.1 hz with rfl | hz2
      · exact ⟨h, hx z (List.mem_cons_self _ _)⟩
      · exact ⟨le_trans h (hy z hz2).1, hx z (List.mem_cons.2 (Or.inr hz2))⟩
    case isFalse h =>
      refine List.pairwise_cons.2 ⟨?_, ?_⟩
      · intro z hz
        rcases (List.mem_orderedInsert _).1 hz with rfl | hz2
        · exact ⟨le_of_not_le h, fun heq => absurd (le_of_eq heq.symm) h⟩
        · exact hy z hz2
      · exact pairwise_orderedInsert_key key R x ys htail
          (fun z hz => hx z (List.mem_cons.2 (Or.inr hz)))

/-- Stability of the embedded stable sort: if ties in the input satisfy R in
input order, then in the sorted output keys ascend and ties still satisfy R. -/
theorem pairwise_insertionSort_key (key : α → ℚ) (R : α → α → Prop) :
    ∀ l : List α, l.Pairwise (fun a b => key a = key b → R a b) →
      (l.insertionSort (fun a b => key a ≤ key b)).Pairwise (sortedStable key R)
  | [], _ => List.Pairwise.nil
  | x :: xs, hl => by
    rw [List.insertionSort]
    rcases List.pairwise_cons.1 hl with ⟨hx, htail⟩
    refine pairwise_orderedInsert_key key R x _
      (pairwise_insertionSort_key key R xs htail) ?_
    intro y hy heq
    exact hx y ((List.mem_insertionSort _).1 hy) heq

theorem windowAt_length {T : List ℚ} {i m : Nat} (h : i + m ≤ T.length) :
    (windowAt T i m).length = m := by
  simp only [windowAt, List.length_take, List.length_drop]
  omega

theorem pmccScored_pairwise_lt (Q T : List ℚ) :
    (pmccScored Q T).Pairwise (fun a b => a.1 < b.1) := by
  exact (List.pairwise_lt_range _).map _ (fun a b h => h)

theorem euclideanScored_pairwise_lt (Q T : List ℚ) :
    (euclideanScored Q T).Pairwise (fun a b => a.1 < b.1) := by
  exact (List.pairwise_lt_range _).map _ (fun a b h => h)

theorem mem_pmccScored {Q T : List ℚ} {p : Nat × ℚ × ℚ} (hp : p ∈ pmccScored Q T) :
    p.1 < T.length - Q.length + 1 ∧
      p.2 = (pearsonC Q (windowAt T p.1 Q.length), pearsonV (windowAt T p.1 Q.length)) := by
  rcases List.mem_map.1 hp with ⟨i, hi, rfl⟩
  exact ⟨List.mem_range.1 hi, rfl⟩

theorem mem_euclideanScored {Q T : List ℚ} {p : Nat × ℚ} (hp : p ∈ euclideanScored Q T) :
    p.1 < T.length - Q.length + 1 ∧ p.2 = sqDist (windowAt T p.1 Q.length) Q := by
  rcases List.mem_map.1 hp with ⟨i, hi, rfl⟩
  exact ⟨List.mem_range.1 hi, rfl⟩

theorem pmccScored_mem {Q T : List ℚ} {i : Nat} (hi : i < T.length - Q.length + 1) :
    (i, pearsonC Q (windowAt T i Q.length), pearsonV (windowAt T i Q.length))
      ∈ pmccScored Q T :=
  List.mem_map.2 ⟨i, List.mem_range.2 hi, rfl⟩

theorem euclideanScored_mem {Q T : List ℚ} {i : Nat} (hi : i < T.length - Q.length + 1) :
    (i, sqDist (windowAt T i Q.length) Q) ∈ euclideanScored Q T :=
  List.mem_map.2 ⟨i, List.mem_range.2 hi, rfl⟩

theorem traverseOpt_get {f : α → Option β} :
    ∀ {l : List α} {out : List β}, traverseOpt l f = some out →
      ∀ i : Nat, out.get? i = (l.get? i).bind f
  | [], out, h, i => by
    simp only [traverseOpt, Option.some.injEq] at h
    subst h
    simp
  | x :: xs, out, h, i => by
    simp only [traverseOpt] at h
    cases hfx : f x with
    | none => rw [hfx] at h; simp at h
    | some y =>
      rw [hfx] at h
      cases hrest : traverseOpt xs f with
      | none => rw [hrest] at h; simp at h
      | some ys =>
        rw [hrest] at h
        have h2 : y :: ys = out := by simpa using h
        subst h2
        cases i with
        | zero => simp [hfx]
        | succ n => simpa using traverseOpt_get hrest n

theorem get?_eq_some_getD {l : List ℚ} {k : Nat} (h : k < l.length) :
    l.get? k = some (l.getD k 0) := by
  cases hq : l.get? k with
  | none => exact absurd (List.get?_eq_none.1 hq) (by omega)
  | some v => rw [List.getD_eq_get?, hq]; rfl

/-- Evaluation of quadratic_interpolation at an interior peak index: all three
neighbor accesses are in bounds and the parabolic formula of the spec is
returned. -/
theorem quadratic_interpolation_interior (data : List ℚ) (idx : Nat) (b : ℚ)
    (h0 : 0 < idx) (hl : idx + 1 < data.length) :
    quadratic_interpolation data idx b =
      some (((idx : ℚ) + (1/2) * (data.getD (idx - 1) 0 - data.getD (idx + 1) 0)
        / (data.getD (idx - 1) 0 - 2 * data.getD idx 0 + data.getD (idx + 1) 0)) * b) := by
  unfold quadratic_interpolation pyGet
  rw [if_pos (by omega : (0:ℤ) ≤ (idx:ℤ) - 1), if_pos (by omega : (0:ℤ) ≤ (idx:ℤ)),
    if_pos (by omega : (0:ℤ) ≤ (idx:ℤ) + 1)]
  have e1 : ((idx:ℤ) - 1).toNat = idx - 1 := by omega
  have e2 : ((idx:ℤ)).toNat = idx := by omega
  have e3 : ((idx:ℤ) + 1).toNat = idx + 1 := by omega
  rw [e1, e2, e3, get?_eq_some_getD (by omega), get?_eq_some_getD (by omega),
    get?_eq_some_getD (by omega)]
  rfl

/-- If the coefficient key of (c, v) is at least the key of a window attaining
coefficient exactly 1, and Cauchy-Schwarz bounds c, then (c, v) also attains
coefficient exactly 1. -/
theorem corrIsOne_of_key_ge {vQ c v ck vk : ℚ} (hQ : 0 < vQ) (hv : 0 < v)
    (hone : corrIsOne vQ ck vk) (hle : -(corrKey c v) ≤ -(corrKey ck vk))
    (hcs : c ^ 2 ≤ vQ * v) : corrIsOne vQ c v := by
  rcases hone with ⟨hck, heq⟩
  have hvk : 0 < vk := by nlinarith [sq_nonneg ck]
  have hkeyk : corrKey ck vk = vQ := by
    rw [corrKey, if_pos hck.le, heq, mul_div_assoc, div_self hvk.ne']
    ring
  rw [hkeyk] at hle
  have hge : vQ ≤ corrKey c v := by linarith
  have hc0 : 0 ≤ c := by
    by_contra hneg
    push_neg at hneg
    rw [corrKey, if_neg (not_le.2 hneg)] at hge
    have : 0 ≤ c ^ 2 / v := by positivity
    linarith
  rw [corrKey, if_pos hc0] at hge
  have hsq : vQ * v ≤ c ^ 2 := by
    rw [le_div_iff hv] at hge
    linarith [hge]
  have hceq : c ^ 2 = vQ * v := le_antisymm hcs hsq
  have hcne : c ≠ 0 := by
    intro h0
    rw [h0] at hceq
    nlinarith
  exact ⟨lt_of_le_of_ne hc0 (Ne.symm hcne), hceq⟩

/-- Properties of the correlation-ranked window list shared by pmcc and the
stump model, when the query occurs exactly at offset k: the k entry attains
coefficient 1, every entry ranked ahead of an entry at offset k also attains
coefficient 1, and if no other window attains coefficient 1 then offset k is
ranked first. -/
theorem corr_ranked_props (Q T : List ℚ) (k : Nat)
    (hk : k + Q.length ≤ T.length)
    (hQ : windowAt T k Q.length = Q) (hQv : pearsonV Q ≠ 0)
    (hWv : ((List.range (T.length - Q.length + 1)).all
      (fun i => decide (pearsonV (windowAt T i Q.length) ≠ 0))) = true) :
    ((k, pearsonV Q, pearsonV Q) ∈ (pmccScored Q T).insertionSort
        (fun a b => -(corrKey a.2.1 a.2.2) ≤ -(corrKey b.2.1 b.2.2)) ∧
      corrIsOne (pearsonV Q) (pearsonV Q) (pearsonV Q)) ∧
    ((pmccScored Q T).insertionSort
        (fun a b => -(corrKey a.2.1 a.2.2) ≤ -(corrKey b.2.1 b.2.2))).Pairwise
      (fun a b => b.1 = k → corrIsOne (pearsonV Q) a.2.1 a.2.2) ∧
    ((∀ i, i < T.length - Q.length + 1 → i ≠ k →
        ¬ corrIsOne (pearsonV Q) (pearsonC Q (windowAt T i Q.length))
          (pearsonV (windowAt T i Q.length))) →
      ∃ s, ((pmccScored Q T).insertionSort
        (fun a b => -(corrKey a.2.1 a.2.2) ≤ -(corrKey b.2.1 b.2.2))).head?
          = some (k, s)) := by
  have hS : 0 < pearsonV Q := (pearsonV_nonneg Q).lt_of_ne (Ne.symm hQv)
  have hmn : Q.length ≤ T.length := le_trans (Nat.le_add_left _ _) hk
  have hkcnt : k < T.length - Q.length + 1 := by omega
  have hone : corrIsOne (pearsonV Q) (pearsonV Q) (pearsonV Q) := ⟨hS, by ring⟩
  have hentry : (k, pearsonC Q (windowAt T k Q.length), pearsonV (windowAt T k Q.length))
      = (k, pearsonV Q, pearsonV Q) := by
    rw [hQ, pearsonC_self]
  have hmem : (k, pearsonV Q, pearsonV Q) ∈ pmccScored Q T := by
    rw [← hentry]; exact pmccScored_mem hkcnt
  have hmemS : (k, pearsonV Q, pearsonV Q) ∈ (pmccScored Q T).insertionSort
      (fun a b => -(corrKey a.2.1 a.2.2) ≤ -(corrKey b.2.1 b.2.2)) :=
    (List.mem_insertionSort _).2 hmem
  have hvar : ∀ i, i < T.length - Q.length + 1 → pearsonV (windowAt T i Q.length) ≠ 0 := by
    intro i hi
    have := (List.all_eq_true.1 hWv) i (List.mem_range.2 hi)
    exact of_decide_eq_true this
  have hwin : ∀ i, i < T.length - Q.length + 1 → (windowAt T i Q.length).length = Q.length := by
    intro i hi
    exact windowAt_length (by omega)
  have hsorted := pairwise_insertionSort_key
    (fun p : Nat × ℚ × ℚ => -(corrKey p.2.1 p.2.2)) (fun _ _ => True) (pmccScored Q T)
    ((pmccScored_pairwise_lt Q T).imp (fun _ => fun _ => trivial))
  have hpw : ((pmccScored Q T).insertionSort
      (fun a b => -(corrKey a.2.1 a.2.2) ≤ -(corrKey b.2.1 b.2.2))).Pairwise
      (fun a b => b.1 = k → corrIsOne (pearsonV Q) a.2.1 a.2.2) := by
    refine hsorted.imp_of_mem ?_
    intro a b hma hmb hab hbk
    have hma2 := mem_pmccScored ((List.mem_insertionSort _).1 hma)
    have hmb2 := mem_pmccScored ((List.mem_insertionSort _).1 hmb)
    rcases hma2 with ⟨hacnt, ha2⟩
    rcases hmb2 with ⟨hbcnt, hb2⟩
    have hb2k : b.2 = (pearsonV Q, pearsonV Q) := by
      rw [hb2, hbk, hQ, pearsonC_self]
    have hva : pearsonV (windowAt T a.1 Q.length) ≠ 0 := hvar a.1 hacnt
    have hva0 : 0 < pearsonV (windowAt T a.1 Q.length) :=
      (pearsonV_nonneg _).lt_of_ne (Ne.symm hva)
    have hcs : pearsonC Q (windowAt T a.1 Q.length) ^ 2
        ≤ pearsonV Q * pearsonV (windowAt T a.1 Q.length) :=
      pearson_cs Q _ (hwin a.1 hacnt)
    have hcs2 : a.2.1 ^ 2 ≤ pearsonV Q * a.2.2 := by rw [ha2]; exact hcs
    have hva2 : 0 < a.2.2 := by rw [ha2]; exact hva0
    have hab2 := hab.1
    dsimp only at hab2
    rw [hb2k] at hab2
    exact corrIsOne_of_key_ge hS hva2 hone hab2 hcs2
  refine ⟨⟨hmemS, hone⟩, hpw, ?_⟩
  intro huniq
  have hlen : ((pmccScored Q T).insertionSort
      (fun a b => -(corrKey a.2.1 a.2.2) ≤ -(corrKey b.2.1 b.2.2))).length
      = T.length - Q.length + 1 := by
    rw [List.length_insertionSort]
    simp [pmccScored]
  have hne : (pmccScored Q T).insertionSort
      (fun a b => -(corrKey a.2.1 a.2.2) ≤ -(corrKey b.2.1 b.2.2)) ≠ [] := by
    intro hnil
    rw [hnil] at hlen
    simp at hlen
  rcases List.exists_cons_of_ne_nil hne with ⟨hd, tl, hL⟩
  have hhd : hd ∈ (pmccScored Q T).insertionSort
      (fun a b => -(corrKey a.2.1 a.2.2) ≤ -(corrKey b.2.1 b.2.2)) := by
    rw [hL]; exact List.mem_cons_self _ _
  rcases mem_pmccScored ((List.mem_insertionSort _).1 hhd) with ⟨hdcnt, hd2⟩
  by_cases hdk : hd.1 = k
  · refine ⟨hd.2, ?_⟩
    rw [hL]
    simp only [List.head?_cons, Option.some.injEq]
    rw [← hdk]
  · exfalso
    have hkmem : (k, pearsonV Q, pearsonV Q) ∈ hd :: tl := by rw [← hL]; exact hmemS
    rcases List.mem_cons.1 hkmem with heq | htl
    · exact hdk (by rw [← heq])
    · have hpw2 := hpw
      rw [hL] at hpw2
      have hrel := (List.pairwise_cons.1 hpw2).1 (k, pearsonV Q, pearsonV Q) htl rfl
      rw [hd2] at hrel
      exact huniq hd.1 hdcnt hdk hrel

/-- Properties of the distance-ranked window list of euclidean when the query
occurs exactly at offset k: the k entry has squared distance 0, every entry
ranked ahead of an entry at offset k also has squared distance 0, and if no
other window is at distance 0 then offset k is ranked first. -/
theorem eucl_ranked_props (Q T : List ℚ) (k : Nat)
    (hk : k + Q.length ≤ T.length)
    (hQ : windowAt T k Q.length = Q) :
    ((k, (0:ℚ)) ∈ (euclideanScored Q T).insertionSort (fun a b => a.2 ≤ b.2)) ∧
    ((euclideanScored Q T).insertionSort (fun a b => a.2 ≤ b.2)).Pairwise
      (fun a b => b.1 = k → a.2 = 0) ∧
    ((∀ i, i < T.length - Q.length + 1 → i ≠ k → sqDist (windowAt T i Q.length) Q ≠ 0) →
      ((euclideanScored Q T).insertionSort (fun a b => a.2 ≤ b.2)).head? = some (k, 0)) := by
  have hmn : Q.length ≤ T.length := le_trans (Nat.le_add_left _ _) hk
  have hkcnt : k < T.length - Q.length + 1 := by omega
  have hzero : sqDist (windowAt T k Q.length) Q = 0 := by rw [hQ]; exact sqDist_self Q
  have hmem : (k, (0:ℚ)) ∈ euclideanScored Q T := by
    rw [← hzero]; exact euclideanScored_mem hkcnt
  have hmemS : (k, (0:ℚ)) ∈ (euclideanScored Q T).insertionSort (fun a b => a.2 ≤ b.2) :=
    (List.mem_insertionSort _).2 hmem
  have hsorted := pairwise_insertionSort_key
    (fun p : Nat × ℚ => p.2) (fun _ _ => True) (euclideanScored Q T)
    ((euclideanScored_pairwise_lt Q T).imp (fun _ => fun _ => trivial))
  have hpw : ((euclideanScored Q T).insertionSort (fun a b => a.2 ≤ b.2)).Pairwise
      (fun a b => b.1 = k → a.2 = 0) := by
    refine hsorted.imp_of_mem ?_
    intro a b hma hmb hab hbk
    rcases mem_euclideanScored ((List.mem_insertionSort _).1 hma) with ⟨hacnt, ha2⟩
    rcases mem_euclideanScored ((List.mem_insertionSort _).1 hmb) with ⟨hbcnt, hb2⟩
    have hb0 : b.2 = 0 := by rw [hb2, hbk, hQ]; exact sqDist_self Q
    have hge : 0 ≤ a.2 := by rw [ha2]; exact sqDist_nonneg _ _
    have hle : a.2 ≤ 0 := by rw [← hb0]; exact hab.1
    linarith
  refine ⟨hmemS, hpw, ?_⟩
  intro huniq
  have hlen : ((euclideanScored Q T).insertionSort (fun a b => a.2 ≤ b.2)).length
      = T.length - Q.length + 1 := by
    rw [List.length_insertionSort]
    simp [euclideanScored]
  have hne : (euclideanScored Q T).insertionSort (fun a b => a.2 ≤ b.2) ≠ [] := by
    intro hnil
    rw [hnil] at hlen
    simp at hlen
  rcases List.exists_cons_of_ne_nil hne with ⟨hd, tl, hL⟩
  have hhd : hd ∈ (euclideanScored Q T).insertionSort (fun a b => a.2 ≤ b.2) := by
    rw [hL]; exact List.mem_cons_self _ _
  rcases mem_euclideanScored ((List.mem_insertionSort _).1 hhd) with ⟨hdcnt, hd2⟩
  by_cases hdk : hd.1 = k
  · have hd0 : hd.2 = 0 := by rw [hd2, hdk, hQ]; exact sqDist_self Q
    rw [hL]
    simp only [List.head?_cons, Option.some.injEq]
    rw [← hdk, ← hd0]
  · exfalso
    have hkmem : (k, (0:ℚ)) ∈ hd :: tl := by rw [← hL]; exact hmemS
    rcases List.mem_cons.1 hkmem with heq | htl
    · exact hdk (by rw [← heq])
    · have hpw2 := hpw
      rw [hL] at hpw2
      have hrel := (List.pairwise_cons.1 hpw2).1 (k, (0:ℚ)) htl rfl
      rw [hd2] at hrel
      exact huniq hd.1 hdcnt hdk hrel

theorem scipy_medfilt_length (xs : List ℚ) (k : Nat) :
    (scipy_medfilt xs k).length = xs.length := by
  rw [scipy_medfilt, List.length_map, List.length_range]

theorem length_filterMap_ite {p : α → Prop} [DecidablePred p] (g : α → β) :
    ∀ l : List α, (l.filterMap (fun a => if p a then some (g a) else none)).length
      = (l.filter (fun a => decide (p a))).length
  | [] => rfl
  | x :: xs => by
    by_cases h : p x
    · simp [List.filterMap_cons, List.filter_cons, h, length_filterMap_ite g xs]
    · simp [List.filterMap_cons, List.filter_cons, h, length_filterMap_ite g xs]

/-- C1: the claim says median_filter returns one frequency per time slice.  On
the code this fails: the comprehension guard (idx := np.argmax(zxx[:, i])) is
falsy when the peak of slice i is at bin 0, and that slice is dropped.  Here
the first slice of a 2-slice grid peaks at bin 0, so only 1 value is returned
for 2 slices. -/
theorem C1_counterexample :
    (median_filter [0, 1] [0, 1] [[(5, 0), (0, 0)], [(1, 0), (9, 0)]]).length
      ≠ ([(0 : ℚ), 1] : List ℚ).length := by
  rw [median_filter, scipy_medfilt_length]
  decide

/-- C1 (amended): median_filter returns one frequency value per time slice
whose peak bin index (numpy argmax of the complex column, first occurrence,
lexicographic order) is nonzero; its output length is the number of such
slices, which is at most the number of time slices. -/
theorem C1_median_filter_length (f t : List ℚ) (zxx : List (List (ℚ × ℚ))) :
    (median_filter f t zxx).length
      = ((List.range t.length).filter
          (fun i => decide (np_argmax_cplx (zxx.map (fun row => row.getD i (0, 0))) ≠ 0))).length
    ∧ (median_filter f t zxx).length ≤ t.length := by
  have h1 : (median_filter f t zxx).length
      = ((List.range t.length).filter
          (fun i => decide (np_argmax_cplx (zxx.map (fun row => row.getD i (0, 0))) ≠ 0))).length := by
    rw [median_filter, scipy_medfilt_length]
    exact length_filterMap_ite _ _
  refine ⟨h1, ?_⟩
  rw [h1]
  calc ((List.range t.length).filter _).length ≤ (List.range t.length).length :=
        List.length_filter_le _ _
    _ = t.length := List.length_range _

/-- C2: the claim says the three rate functions fail whenever new_fs >= fs.
On the code this fails at equality: _validate_fs raises only for fs < new_fs
(its docstring documents raising for greater-than), so new_fs = fs = 300
passes validation in all three functions and no InvalidRateError is raised. -/
theorem C2_counterexample :
    validate_fs 300 300 = Except.ok () ∧
    resample [1, 2, 3] 300 300 = Except.ok (300, [1, 2, 3]) ∧
    decimate_and_interpolate [1, 2, 3] 300 300 = Except.ok (300, [1, 2, 3]) ∧
    almost_decimate [1, 2, 3] 300 300 = Except.ok (300, [1, 2, 3]) :=
  ⟨rfl, rfl, rfl, rfl⟩

/-- C2 (amended): resample, decimate_and_interpolate and almost_decimate all
fail with InvalidRateError exactly when new_fs > fs; for new_fs <= fs
(equality included) none of them raises this error. -/
theorem C2_rate_validation_amended (data : List ℚ) (fs new_fs : Nat) :
    (fs < new_fs →
      resample data fs new_fs = Except.error RateErr.invalidRate ∧
      decimate_and_interpolate data fs new_fs = Except.error RateErr.invalidRate ∧
      almost_decimate data fs new_fs = Except.error RateErr.invalidRate) ∧
    (new_fs ≤ fs →
      (∃ r, resample data fs new_fs = Except.ok r) ∧
      (∃ r, decimate_and_interpolate data fs new_fs = Except.ok r) ∧
      (∃ r, almost_decimate data fs new_fs = Except.ok r)) := by
  constructor
  · intro h
    have hv : validate_fs fs new_fs = Except.error RateErr.invalidRate := by
      simp [validate_fs, h]
    refine ⟨?_, ?_, ?_⟩ <;>
      simp only [resample, decimate_and_interpolate, almost_decimate, hv]
  · intro h
    have hv : validate_fs fs new_fs = Except.ok () := by
      simp [validate_fs, Nat.not_lt.2 h]
    refine ⟨?_, ?_, ?_⟩ <;>
      simp only [resample, decimate_and_interpolate, almost_decimate, hv] <;>
      exact ⟨_, rfl⟩

/-- Witness for C2 (amended) at fs = 2 < new_fs = 3 (error) and
new_fs = fs = 3 (no error). -/
theorem C2_rate_validation_witness :
    resample [(1 : ℚ)] 2 3 = Except.error RateErr.invalidRate ∧
    (∃ r, resample [(1 : ℚ)] 3 3 = Except.ok r) :=
  ⟨((C2_rate_validation_amended [1] 2 3).1 (by decide)).1,
   ((C2_rate_validation_amended [1] 3 3).2 (by decide)).1⟩

/-- C3: the claim says resample returns round(D*new_fs) samples.  On the code
this fails: num_samples = int(wave_duration*new_fs) truncates.  For 3 samples
at fs = 2 and new_fs = 1, D*new_fs = 1.5: the code returns 1 sample while
round(1.5) = 2 (all arithmetic exact in binary64 here). -/
theorem C3_counterexample :
    resample [1, 2, 3] 2 1 = Except.ok (1, [1]) ∧ ((1 : ℤ) ≠ round ((3 : ℚ) / 2 * 1)) :=
  ⟨rfl, by norm_num [round_eq]⟩

/-- C3 (amended): for new_fs < fs, resample returns the signal paired with the
rate new_fs, and the number of samples is the truncation
floor(D * new_fs) = floor(len(data) * new_fs / fs) of the exact product, not
its rounding. -/
theorem C3_resample_length_amended (data : List ℚ) (fs new_fs : Nat)
    (h : new_fs < fs) :
    ∃ r, resample data fs new_fs = Except.ok (new_fs, r) ∧
      r.length = data.length * new_fs / fs ∧
      r.length = ⌊(data.length : ℚ) / (fs : ℚ) * (new_fs : ℚ)⌋₊ := by
  have hv : validate_fs fs new_fs = Except.ok () := by
    simp [validate_fs, Nat.not_lt.2 h.le]
  have hlen : (scipy_signal_resample data (data.length * new_fs / fs)).length
      = data.length * new_fs / fs := by
    simp [scipy_signal_resample]
  refine ⟨_, ?_, hlen, ?_⟩
  · simp only [resample, hv]
  · rw [hlen]
    have hcast : (data.length : ℚ) / (fs : ℚ) * (new_fs : ℚ)
        = ((data.length * new_fs : ℕ) : ℚ) / ((fs : ℕ) : ℚ) := by
      push_cast
      ring
    rw [hcast, Nat.floor_div_eq_div]

/-- Witness for C3 (amended) at 3 samples, fs = 2, new_fs = 1. -/
theorem C3_resample_length_witness :
    ∃ r, resample [(1 : ℚ), 2, 3] 2 1 = Except.ok (1, r) ∧
      r.length = ([(1 : ℚ), 2, 3] : List ℚ).length * 1 / 2 ∧
      r.length = ⌊((([(1 : ℚ), 2, 3] : List ℚ).length : ℚ)) / ((2 : ℕ) : ℚ) * ((1 : ℕ) : ℚ)⌋₊ :=
  C3_resample_length_amended [1, 2, 3] 2 1 (by decide)

/-- C4: the claim says each matcher returns an empty list when
len(Q) > len(T).  On the code pmcc and euclidean raise instead: numpy
sliding_window_view refuses a window larger than the array. -/
theorem C4_counterexample :
    pmcc [2, 3, 4] [1, 2] = Except.error MatchErr.windowTooLarge ∧
    euclidean [2, 3, 4] [1, 2] = Except.error MatchErr.windowTooLarge :=
  ⟨rfl, rfl⟩

/-- C4 (amended): for len(Q) > len(T), pmcc and euclidean raise the numpy
windowing error rather than returning an empty list; stump (modelled from the
spec, which prescribes zero windows for its external matrix-profile search)
returns an empty list. -/
theorem C4_oversized_query_amended (Q T : List ℚ) (h : T.length < Q.length) :
    pmcc Q T = Except.error MatchErr.windowTooLarge ∧
    euclidean Q T = Except.error MatchErr.windowTooLarge ∧
    stump Q T = Except.ok ([] : List (Nat × ℚ × ℚ)) := by
  refine ⟨?_, ?_, ?_⟩ <;> simp [pmcc, euclidean, stump, h]

/-- Witness for C4 (amended) at len(Q) = 3 > len(T) = 1. -/
theorem C4_oversized_query_witness :
    pmcc [2, 3, 4] [(1 : ℚ)] = Except.error MatchErr.windowTooLarge ∧
    euclidean [2, 3, 4] [(1 : ℚ)] = Except.error MatchErr.windowTooLarge ∧
    stump [2, 3, 4] [(1 : ℚ)] = Except.ok ([] : List (Nat × ℚ × ℚ)) :=
  C4_oversized_query_amended [2, 3, 4] [(1 : ℚ)] (by decide)

unseal Nat.gcd Rat.add Rat.sub Rat.mul Rat.inv in
/-- C5: the claim says euclidean ties offsets 1 and 10 at distance 0 on the
concrete scenario.  On the code this fails: the query [2,3,4] occurs at
offsets 1 and 9 of T, while the window at offset 10 is [3,4,5], at squared
distance 3 (distance sqrt 3, not 0).  So (10, 0) is not among the results. -/
theorem C5_counterexample :
    ¬ ∃ l, euclidean [2, 3, 4] [1, 2, 3, 4, 5, 4, 3, 2, 1, 2, 3, 4, 5] = Except.ok l ∧
      (10, (0 : ℚ)) ∈ l := by
  intro hcl
  rcases hcl with ⟨l, hl, hmem⟩
  have hev : euclidean [2, 3, 4] [1, 2, 3, 4, 5, 4, 3, 2, 1, 2, 3, 4, 5]
      = Except.ok [(1, 0), (9, 0), (0, 3), (2, 3), (8, 3), (10, 3), (3, 8), (5, 8),
          (7, 8), (4, 11), (6, 11)] := by decide
  rw [hev] at hl
  have hleq := Except.ok.inj hl
  rw [← hleq] at hmem
  revert hmem
  decide

unseal Nat.gcd Rat.add Rat.sub Rat.mul Rat.inv in
/-- C5 (amended): on T = [1,2,3,4,5,4,3,2,1,2,3,4,5] and Q = [2,3,4],
euclidean's top results are offsets 1 and 9 tied at distance 0 (squared
distance 0), and pmcc ranks the equal-shape windows at offsets 1, 9 and 10
all at coefficient exactly 1 (score pair (6,6) with scaled query variance 6:
6^2 = 6*6). -/
theorem C5_concrete_scenario_amended :
    euclidean [2, 3, 4] [1, 2, 3, 4, 5, 4, 3, 2, 1, 2, 3, 4, 5]
      = Except.ok [(1, 0), (9, 0), (0, 3), (2, 3), (8, 3), (10, 3), (3, 8), (5, 8),
          (7, 8), (4, 11), (6, 11)] ∧
    ([((1 : Nat), (0 : ℚ)), (9, 0), (0, 3), (2, 3), (8, 3), (10, 3), (3, 8), (5, 8),
        (7, 8), (4, 11), (6, 11)].take 2 = [(1, 0), (9, 0)]) ∧
    pmcc [2, 3, 4] [1, 2, 3, 4, 5, 4, 3, 2, 1, 2, 3, 4, 5]
      = Except.ok [(0, 6, 6), (1, 6, 6), (2, 6, 6), (8, 6, 6), (9, 6, 6), (10, 6, 6),
          (3, 0, 2), (7, 0, 2), (4, -6, 6), (5, -6, 6), (6, -6, 6)] ∧
    corrIsOne (pearsonV [2, 3, 4]) 6 6 :=
  ⟨by decide, by decide, by decide, by constructor <;> decide⟩

/-- C6: for 1 <= len(Q) <= len(T), each matcher returns exactly
len(T)-len(Q)+1 scored offsets, covering every offset in [0, len(T)-len(Q)]
exactly once, and the score attached to offset i is the score of the window
of T of length len(Q) starting at T[i] (offset 0 = window at T[0]).  The
stump conjunct is settled against the spec-modelled stump. -/
theorem C6_matcher_offsets (Q T : List ℚ) (hm : 1 ≤ Q.length) (hmn : Q.length ≤ T.length) :
    (∃ l, pmcc Q T = Except.ok l ∧ l.length = T.length - Q.length + 1 ∧
      (l.map Prod.fst).Perm (List.range (T.length - Q.length + 1)) ∧
      ∀ p ∈ l, p.2 = (pearsonC Q (windowAt T p.1 Q.length),
        pearsonV (windowAt T p.1 Q.length))) ∧
    (∃ l, euclidean Q T = Except.ok l ∧ l.length = T.length - Q.length + 1 ∧
      (l.map Prod.fst).Perm (List.range (T.length - Q.length + 1)) ∧
      ∀ p ∈ l, p.2 = sqDist (windowAt T p.1 Q.length) Q) ∧
    (∃ l, stump Q T = Except.ok l ∧ l.length = T.length - Q.length + 1 ∧
      (l.map Prod.fst).Perm (List.range (T.length - Q.length + 1)) ∧
      ∀ p ∈ l, p.2 = (pearsonC Q (windowAt T p.1 Q.length),
        pearsonV (windowAt T p.1 Q.length))) := by
  have hnot : ¬ T.length < Q.length := Nat.not_lt.2 hmn
  have hplen : ((pmccScored Q T).insertionSort
      (fun a b => -(corrKey a.2.1 a.2.2) ≤ -(corrKey b.2.1 b.2.2))).length
      = T.length - Q.length + 1 := by
    rw [List.length_insertionSort]
    simp [pmccScored]
  have hpperm : (((pmccScored Q T).insertionSort
      (fun a b => -(corrKey a.2.1 a.2.2) ≤ -(corrKey b.2.1 b.2.2))).map Prod.fst).Perm
      (List.range (T.length - Q.length + 1)) := by
    have h1 := (List.perm_insertionSort
      (fun a b : Nat × ℚ × ℚ => -(corrKey a.2.1 a.2.2) ≤ -(corrKey b.2.1 b.2.2))
      (pmccScored Q T)).map Prod.fst
    have h2 : (pmccScored Q T).map Prod.fst = List.range (T.length - Q.length + 1) := by
      rw [pmccScored, List.map_map]
      exact List.map_id _
    rw [h2] at h1
    exact h1
  have hpmem : ∀ p ∈ (pmccScored Q T).insertionSort
      (fun a b => -(corrKey a.2.1 a.2.2) ≤ -(corrKey b.2.1 b.2.2)),
      p.2 = (pearsonC Q (windowAt T p.1 Q.length), pearsonV (windowAt T p.1 Q.length)) := by
    intro p hp
    exact (mem_pmccScored ((List.mem_insertionSort _).1 hp)).2
  have helen : ((euclideanScored Q T).insertionSort (fun a b => a.2 ≤ b.2)).length
      = T.length - Q.length + 1 := by
    rw [List.length_insertionSort]
    simp [euclideanScored]
  have heperm : (((euclideanScored Q T).insertionSort (fun a b => a.2 ≤ b.2)).map
      Prod.fst).Perm (List.range (T.length - Q.length + 1)) := by
    have h1 := (List.perm_insertionSort (fun a b : Nat × ℚ => a.2 ≤ b.2)
      (euclideanScored Q T)).map Prod.fst
    have h2 : (euclideanScored Q T).map Prod.fst = List.range (T.length - Q.length + 1) := by
      rw [euclideanScored, List.map_map]
      exact List.map_id _
    rw [h2] at h1
    exact h1
  have hemem : ∀ p ∈ (euclideanScored Q T).insertionSort (fun a b => a.2 ≤ b.2),
      p.2 = sqDist (windowAt T p.1 Q.length) Q := by
    intro p hp
    exact (mem_euclideanScored ((List.mem_insertionSort _).1 hp)).2
  refine ⟨⟨_, ?_, hplen, hpperm, hpmem⟩, ⟨_, ?_, helen, heperm, hemem⟩,
    ⟨_, ?_, hplen, hpperm, hpmem⟩⟩
  · simp [pmcc, hnot]
  · simp [euclidean, hnot]
  · simp [stump, hnot]

/-- Witness for C6 at Q = [1], T = [2,3]. -/
theorem C6_matcher_offsets_witness :
    (∃ l, pmcc [(1 : ℚ)] [(2 : ℚ), 3] = Except.ok l ∧
      l.length = ([(2 : ℚ), 3] : List ℚ).length - ([(1 : ℚ)] : List ℚ).length + 1 ∧
      (l.map Prod.fst).Perm (List.range
        (([(2 : ℚ), 3] : List ℚ).length - ([(1 : ℚ)] : List ℚ).length + 1)) ∧
      ∀ p ∈ l, p.2 = (pearsonC [(1 : ℚ)] (windowAt [(2 : ℚ), 3] p.1 ([(1 : ℚ)] : List ℚ).length),
        pearsonV (windowAt [(2 : ℚ), 3] p.1 ([(1 : ℚ)] : List ℚ).length))) ∧
    (∃ l, euclidean [(1 : ℚ)] [(2 : ℚ), 3] = Except.ok l ∧
      l.length = ([(2 : ℚ), 3] : List ℚ).length - ([(1 : ℚ)] : List ℚ).length + 1 ∧
      (l.map Prod.fst).Perm (List.range
        (([(2 : ℚ), 3] : List ℚ).length - ([(1 : ℚ)] : List ℚ).length + 1)) ∧
      ∀ p ∈ l, p.2 = sqDist (windowAt [(2 : ℚ), 3] p.1 ([(1 : ℚ)] : List ℚ).length) [(1 : ℚ)]) ∧
    (∃ l, stump [(1 : ℚ)] [(2 : ℚ), 3] = Except.ok l ∧
      l.length = ([(2 : ℚ), 3] : List ℚ).length - ([(1 : ℚ)] : List ℚ).length + 1 ∧
      (l.map Prod.fst).Perm (List.range
        (([(2 : ℚ), 3] : List ℚ).length - ([(1 : ℚ)] : List ℚ).length + 1)) ∧
      ∀ p ∈ l, p.2 = (pearsonC [(1 : ℚ)] (windowAt [(2 : ℚ), 3] p.1 ([(1 : ℚ)] : List ℚ).length),
        pearsonV (windowAt [(2 : ℚ), 3] p.1 ([(1 : ℚ)] : List ℚ).length))) :=
  C6_matcher_offsets [(1 : ℚ)] [(2 : ℚ), 3] (by decide) (by decide)

unseal Nat.gcd Rat.add Rat.sub Rat.mul Rat.inv in
/-- C7: the claim says each matcher ranks an exact-occurrence offset k first.
On the code this fails for pmcc: in T = [1,2,3,2,4,6] the query Q = [2,4,6]
occurs exactly at offset 3, but the window [1,2,3] at offset 0 is a perfect
affine match (coefficient also exactly 1) and the stable descending sort
ranks offset 0 first, not 3. -/
theorem C7_counterexample :
    windowAt [1, 2, 3, 2, 4, 6] 3 3 = [2, 4, 6] ∧
    ¬ ∃ l s, pmcc [2, 4, 6] [1, 2, 3, 2, 4, 6] = Except.ok l ∧ l.head? = some (3, s) := by
  refine ⟨by decide, ?_⟩
  intro hcl
  rcases hcl with ⟨l, s, hl, hh⟩
  have h0 : pmcc [2, 4, 6] [1, 2, 3, 2, 4, 6]
      = Except.ok [(0, 12, 6), (3, 24, 24), (2, 6, 6), (1, 0, 2)] := by decide
  rw [h0] at hl
  have hleq := Except.ok.inj hl
  rw [← hleq] at hh
  simp only [List.head?_cons, Option.some.injEq] at hh
  have h3 := congrArg Prod.fst hh
  simp at h3

/-- C7 (amended): when Q is an exact window of T at offset k (with Q and all
windows nonconstant, so all coefficients are defined), each matcher assigns
offset k the optimal score: pmcc and stump (spec-modelled) rank the k entry
with coefficient exactly 1 and every entry placed ahead of any entry at
offset k also has coefficient exactly 1 (an earlier perfect affine match);
euclidean ranks the k entry at squared distance 0 and every entry ahead of it
at squared distance 0.  Consequently k is ranked first whenever no other
window attains the optimal score: under that uniqueness hypothesis the head
of the ranking is the k entry. -/
theorem C7_self_match_amended (Q T : List ℚ) (k : Nat)
    (hk : k + Q.length ≤ T.length)
    (hQ : windowAt T k Q.length = Q) (hQv : pearsonV Q ≠ 0)
    (hWv : ((List.range (T.length - Q.length + 1)).all
      (fun i => decide (pearsonV (windowAt T i Q.length) ≠ 0))) = true) :
    (∃ l, pmcc Q T = Except.ok l ∧
      ((k, pearsonV Q, pearsonV Q) ∈ l ∧ corrIsOne (pearsonV Q) (pearsonV Q) (pearsonV Q)) ∧
      l.Pairwise (fun a b => b.1 = k → corrIsOne (pearsonV Q) a.2.1 a.2.2) ∧
      ((∀ i, i < T.length - Q.length + 1 → i ≠ k →
          ¬ corrIsOne (pearsonV Q) (pearsonC Q (windowAt T i Q.length))
            (pearsonV (windowAt T i Q.length))) →
        ∃ s, l.head? = some (k, s))) ∧
    (∃ l, euclidean Q T = Except.ok l ∧ (k, (0 : ℚ)) ∈ l ∧
      l.Pairwise (fun a b => b.1 = k → a.2 = 0) ∧
      ((∀ i, i < T.length - Q.length + 1 → i ≠ k →
          sqDist (windowAt T i Q.length) Q ≠ 0) →
        l.head? = some (k, 0))) ∧
    (∃ l, stump Q T = Except.ok l ∧
      ((k, pearsonV Q, pearsonV Q) ∈ l ∧ corrIsOne (pearsonV Q) (pearsonV Q) (pearsonV Q)) ∧
      l.Pairwise (fun a b => b.1 = k → corrIsOne (pearsonV Q) a.2.1 a.2.2) ∧
      ((∀ i, i < T.length - Q.length + 1 → i ≠ k →
          ¬ corrIsOne (pearsonV Q) (pearsonC Q (windowAt T i Q.length))
            (pearsonV (windowAt T i Q.length))) →
        ∃ s, l.head? = some (k, s))) := by
  have hmn : Q.length ≤ T.length := le_trans (Nat.le_add_left _ _) hk
  have hnot : ¬ T.length < Q.length := Nat.not_lt.2 hmn
  obtain ⟨h1, h2, h3⟩ := corr_ranked_props Q T k hk hQ hQv hWv
  obtain ⟨e1, e2, e3⟩ := eucl_ranked_props Q T k hk hQ
  refine ⟨⟨_, ?_, ⟨h1.1, h1.2⟩, h2, h3⟩, ⟨_, ?_, e1, e2, e3⟩, ⟨_, ?_, ⟨h1.1, h1.2⟩, h2, h3⟩⟩
  · simp [pmcc, hnot]
  · simp [euclidean, hnot]
  · simp [stump, hnot]

unseal Nat.gcd Rat.add Rat.sub Rat.mul Rat.inv in
/-- Witness for C7 (amended): Q = [1,0] occurs in T = [0,1,0,2] exactly at
offset 1, all windows are nonconstant, and offset 1 is the unique optimum. -/
theorem C7_self_match_witness :
    ∃ l, euclidean [(1 : ℚ), 0] [(0 : ℚ), 1, 0, 2] = Except.ok l ∧ (1, (0 : ℚ)) ∈ l ∧
      l.Pairwise (fun a b => b.1 = 1 → a.2 = 0) ∧
      ((∀ i, i < ([(0 : ℚ), 1, 0, 2] : List ℚ).length - ([(1 : ℚ), 0] : List ℚ).length + 1 →
          i ≠ 1 →
          sqDist (windowAt [(0 : ℚ), 1, 0, 2] i ([(1 : ℚ), 0] : List ℚ).length)
            [(1 : ℚ), 0] ≠ 0) →
        l.head? = some (1, 0)) :=
  (C7_self_match_amended [(1 : ℚ), 0] [(0 : ℚ), 1, 0, 2] 1 (by decide) (by decide)
    (by decide) (by decide)).2.1

/-- C8: for every time slice of the magnitude grid whose peak index (first
index of the maximum magnitude) is neither 0 nor the last index, the entry
interpolate produces for that slice is exactly
(max_idx + 0.5*(left-right)/(left-2*center+right)) * bin_size with left,
center, right the magnitudes at max_idx-1, max_idx, max_idx+1. -/
theorem C8_interpolate_formula (zxx : List (List ℚ)) (b : ℚ) (out : List ℚ) (i : Nat)
    (sp : List ℚ)
    (hout : interpolate zxx b = some out)
    (hsp : (zxx.transpose.map (fun sl => sl.map (fun v => |v|))).get? i = some sp)
    (h0 : 0 < np_argmax sp) (hlast : np_argmax sp + 1 < sp.length) :
    out.get? i = some (((np_argmax sp : ℚ)
      + (1/2) * (sp.getD (np_argmax sp - 1) 0 - sp.getD (np_argmax sp + 1) 0)
        / (sp.getD (np_argmax sp - 1) 0 - 2 * sp.getD (np_argmax sp) 0
            + sp.getD (np_argmax sp + 1) 0)) * b) := by
  unfold interpolate at hout
  have h := traverseOpt_get
    (f := fun spectrum => quadratic_interpolation spectrum (np_argmax spectrum) b)
    (l := zxx.transpose.map (fun sl => sl.map (fun v => |v|))) hout i
  rw [hsp] at h
  rw [h]
  exact quadratic_interpolation_interior sp (np_argmax sp) b h0 hlast

unseal Nat.gcd Rat.add Rat.sub Rat.mul Rat.inv in
/-- Witness for C8 on the one-slice grid [[1],[5],[2]] (spectrum [1,5,2],
peak at interior index 1), bin size 2. -/
theorem C8_interpolate_formula_witness :
    ([(15 : ℚ)/7] : List ℚ).get? 0 = some (((np_argmax [(1 : ℚ), 5, 2] : ℚ)
      + (1/2) * (([(1 : ℚ), 5, 2] : List ℚ).getD (np_argmax [(1 : ℚ), 5, 2] - 1) 0
          - ([(1 : ℚ), 5, 2] : List ℚ).getD (np_argmax [(1 : ℚ), 5, 2] + 1) 0)
        / (([(1 : ℚ), 5, 2] : List ℚ).getD (np_argmax [(1 : ℚ), 5, 2] - 1) 0
            - 2 * ([(1 : ℚ), 5, 2] : List ℚ).getD (np_argmax [(1 : ℚ), 5, 2]) 0
            + ([(1 : ℚ), 5, 2] : List ℚ).getD (np_argmax [(1 : ℚ), 5, 2] + 1) 0)) * 2) :=
  C8_interpolate_formula [[1], [5], [2]] 2 [(15 : ℚ)/7] 0 [(1 : ℚ), 5, 2]
    (by decide) (by decide) (by decide) (by decide)

unseal Nat.gcd Rat.add Rat.sub Rat.mul Rat.inv in
/-- C9: the claim asserts ascending tie order for every Q and T.  On the code
this fails for pmcc once a constant window is present: np.corrcoef gives it a
NaN score, NaN keys make the sort comparator inconsistent, and CPython then
guarantees no order at all.  Concretely, with Q = [0,1] and
T = [2,2,2,2,0,0,5,0,5] the eight window keys -corr are
[NaN, NaN, NaN, 1, NaN, -1, 1, -1]; CPython run detection (every NaN
comparison is False) swallows the first seven keys as one disordered
"ascending" run, and the binary insertion of the final key -1 probes the key
1 at position 3 and lands there — ahead of the run's equal key -1.  The
windows at offsets 5 and 7 are the identical pair (0,5), so their float
scores are bit-identical (coefficient exactly 1), yet offset 7 is ranked at
position 3 and offset 5 at position 6: two exactly equal scores in
descending offset order, refuting the claimed Pairwise property. -/
theorem C9_counterexample :
    pmccPy [0, 1] [2, 2, 2, 2, 0, 0, 5, 0, 5] = Except.ok
      [(0, PyKey.nan), (1, PyKey.nan), (2, PyKey.nan), (7, PyKey.num (-1)),
        (3, PyKey.num 1), (4, PyKey.nan), (5, PyKey.num (-1)), (6, PyKey.num 1)] ∧
    windowAt [2, 2, 2, 2, 0, 0, 5, 0, 5] 5 2 = windowAt [2, 2, 2, 2, 0, 0, 5, 0, 5] 7 2 ∧
    ¬ ([(0, PyKey.nan), (1, PyKey.nan), (2, PyKey.nan), (7, PyKey.num (-1)),
        (3, PyKey.num 1), (4, PyKey.nan), (5, PyKey.num (-1)), (6, PyKey.num 1)]
          : List (Nat × PyKey)).Pairwise
        (fun a b => a.2 = b.2 → a.1 < b.1) :=
  ⟨by decide, by decide, by decide⟩

/-- C9 (amended): for euclidean, offsets whose scores are exactly equal
always appear in ascending offset order.  For pmcc the same holds whenever
the query and every window are nonconstant, so that every coefficient is a
real number and the comparator is a consistent total preorder (Python sorted
is then stable over the ascending-offset enumeration); with a constant
window present its NaN score voids the guarantee (see the counterexample).
Equality of pmcc scores is stated through the exact order key corrKey, which
under the nonconstancy hypotheses agrees with equality of the real
coefficients. -/
theorem C9_tie_order_amended (Q T : List ℚ) :
    (pearsonV Q ≠ 0 →
      ((List.range (T.length - Q.length + 1)).all
        (fun i => decide (pearsonV (windowAt T i Q.length) ≠ 0))) = true →
      ∀ l, pmcc Q T = Except.ok l →
        l.Pairwise (fun a b => corrKey a.2.1 a.2.2 = corrKey b.2.1 b.2.2 → a.1 < b.1)) ∧
    (∀ l, euclidean Q T = Except.ok l →
      l.Pairwise (fun a b => a.2 = b.2 → a.1 < b.1)) := by
  constructor
  · intro hQv hWv l hl
    by_cases h : T.length < Q.length
    · rw [pmcc, if_pos h] at hl
      exact absurd hl (by simp)
    · rw [pmcc, if_neg h] at hl
      have hleq := Except.ok.inj hl
      rw [← hleq]
      have hst := pairwise_insertionSort_key (fun p : Nat × ℚ × ℚ => -(corrKey p.2.1 p.2.2))
        (fun a b => a.1 < b.1) (pmccScored Q T)
        ((pmccScored_pairwise_lt Q T).imp (fun hlt => fun _ => hlt))
      exact hst.imp (fun hab heq => hab.2 (congrArg Neg.neg heq))
  · intro l hl
    by_cases h : T.length < Q.length
    · rw [euclidean, if_pos h] at hl
      exact absurd hl (by simp)
    · rw [euclidean, if_neg h] at hl
      have hleq := Except.ok.inj hl
      rw [← hleq]
      have hst := pairwise_insertionSort_key (fun p : Nat × ℚ => p.2)
        (fun a b => a.1 < b.1) (euclideanScored Q T)
        ((euclideanScored_pairwise_lt Q T).imp (fun hlt => fun _ => hlt))
      exact hst.imp (fun hab heq => hab.2 heq)

unseal Nat.gcd Rat.add Rat.sub Rat.mul Rat.inv in
/-- Witness for C9 (amended) on Q = [1,0], T = [0,1,0,2], whose query and
windows are all nonconstant. -/
theorem C9_tie_order_witness :
    ([((1 : Nat), ((1 : ℚ), (1 : ℚ))), (0, (-1, 1)), (2, (-2, 4))]
        : List (Nat × ℚ × ℚ)).Pairwise
      (fun a b => corrKey a.2.1 a.2.2 = corrKey b.2.1 b.2.2 → a.1 < b.1) :=
  (C9_tie_order_amended [(1 : ℚ), 0] [(0 : ℚ), 1, 0, 2]).1 (by decide) (by decide)
    _ (by decide)

theorem quadratic_interpolation_none_of_right (data : List ℚ) (idx : Nat) (b : ℚ)
    (h : pyGet data ((idx : Int) + 1) = none) :
    quadratic_interpolation data idx b = none := by
  unfold quadratic_interpolation
  rw [h]
  cases pyGet data ((idx : Int) - 1) <;> cases pyGet data (idx : Int) <;> rfl

/-- C10: when the peak of a time slice is at index 0, the interpolation does
not fail: Python negative indexing wraps data[-1] to the last element and a
value computed from that wrapped neighborhood (last element as left neighbor)
is returned; the element access goes out of bounds exactly when the peak is
at the last index (the right neighbor data[max_idx+1]), and at an interior
peak a value is always produced. -/
theorem C10_boundary_behaviour (data : List ℚ) (b : ℚ) :
    (2 ≤ data.length → np_argmax data = 0 →
      quadratic_interpolation data (np_argmax data) b
        = some ((((0 : Nat) : ℚ)
            + (1/2) * (data.getD (data.length - 1) 0 - data.getD 1 0)
              / (data.getD (data.length - 1) 0 - 2 * data.getD 0 0 + data.getD 1 0)) * b)) ∧
    (data ≠ [] → np_argmax data = data.length - 1 →
      quadratic_interpolation data (np_argmax data) b = none) ∧
    (0 < np_argmax data → np_argmax data + 1 < data.length →
      (quadratic_interpolation data (np_argmax data) b).isSome = true) := by
  refine ⟨?_, ?_, ?_⟩
  · intro h2 h0
    rw [h0]
    unfold quadratic_interpolation pyGet
    rw [if_neg (by omega : ¬ (0:ℤ) ≤ ((0:Nat):ℤ) - 1),
      if_pos (by omega : (0:ℤ) ≤ (data.length : ℤ) + (((0:Nat):ℤ) - 1)),
      if_pos (by omega : (0:ℤ) ≤ ((0:Nat):ℤ)),
      if_pos (by omega : (0:ℤ) ≤ ((0:Nat):ℤ) + 1)]
    have e1 : ((data.length : ℤ) + (((0:Nat):ℤ) - 1)).toNat = data.length - 1 := by omega
    have e2 : (((0:Nat):ℤ)).toNat = 0 := by omega
    have e3 : (((0:Nat):ℤ) + 1).toNat = 1 := by omega
    rw [e1, e2, e3, get?_eq_some_getD (by omega), get?_eq_some_getD (by omega),
      get?_eq_some_getD (by omega)]
    rfl
  · intro hne hlast
    rw [hlast]
    refine quadratic_interpolation_none_of_right data (data.length - 1) b ?_
    have hlen : 0 < data.length := List.length_pos.2 hne
    unfold pyGet
    rw [if_pos (by omega : (0:ℤ) ≤ ((data.length - 1 : Nat) : ℤ) + 1)]
    have e1 : (((data.length - 1 : Nat) : ℤ) + 1).toNat = data.length := by omega
    rw [e1]
    exact List.get?_eq_none.2 le_rfl
  · intro h0 hlast
    rw [quadratic_interpolation_interior data (np_argmax data) b h0 hlast]
    rfl

unseal Nat.gcd Rat.add Rat.sub Rat.mul Rat.inv in
/-- Witness for C10: peak at index 0 of [5,1,2] (wrapped value), peak at the
last index of [1,5] (failure), interior peak of [1,5,2] (success). -/
theorem C10_boundary_witness :
    quadratic_interpolation [(5 : ℚ), 1, 2] (np_argmax [(5 : ℚ), 1, 2]) 14
      = some ((((0 : Nat) : ℚ)
          + (1/2) * (([(5 : ℚ), 1, 2] : List ℚ).getD (([(5 : ℚ), 1, 2] : List ℚ).length - 1) 0
              - ([(5 : ℚ), 1, 2] : List ℚ).getD 1 0)
            / (([(5 : ℚ), 1, 2] : List ℚ).getD (([(5 : ℚ), 1, 2] : List ℚ).length - 1) 0
                - 2 * ([(5 : ℚ), 1, 2] : List ℚ).getD 0 0
                + ([(5 : ℚ), 1, 2] : List ℚ).getD 1 0)) * 14) ∧
    quadratic_interpolation [(1 : ℚ), 5] (np_argmax [(1 : ℚ), 5]) 3 = none ∧
    (quadratic_interpolation [(1 : ℚ), 5, 2] (np_argmax [(1 : ℚ), 5, 2]) 3).isSome = true :=
  ⟨(C10_boundary_behaviour [(5 : ℚ), 1, 2] 14).1 (by decide) (by decide),
   (C10_boundary_behaviour [(1 : ℚ), 5] 3).2.1 (by decide) (by decide),
   (C10_boundary_behaviour [(1 : ℚ), 5, 2] 3).2.2 (by decide) (by decide)⟩

end ENF
